import Mathlib

/-!
Verification of the ring arithmetic and reconciliation functions of a small
Ring-LWE key-exchange demonstration program (Rust source `src/main.rs`).

The source works with a fixed modulus `Q = 251` and a polynomial type
`Poly<u8>` holding 128 coefficients, each a `u8` kept in the range `[0, Q)`.
We embed the coefficients as natural numbers; every place where the source
performs a cast that can lose information (the `as u32` wrapping cast in
`SubAssign`) is modelled exactly, while casts that are provably lossless on
the values that reach them (`as u8` on values already reduced below 256) are
elided.
-/

namespace Rlwe

/-- The modulus of the coefficient field, `const Q: u8 = 251` in the source. -/
def Q : ℕ := 251

/-- A ring element: 128 coefficients, source type `Poly<u8>`. -/
abbrev Poly : Type := Fin 128 → ℕ

/-- A signal vector: 128 booleans, source type `Poly<bool>`. -/
abbrev PolyB : Type := Fin 128 → Bool

/-- Source `fn modulo_add64(a: u32, b: u32) -> u8`: add in 32-bit arithmetic
and reduce mod `Q`.  The result is below `Q < 256`, so the final `as u8` cast
is lossless. -/
def modulo_add64 (a b : ℕ) : ℕ := (a + b) % Q

/-- Source `fn modulo_add(a: u8, b: u8) -> u8`, which widens and calls
`modulo_add64`. -/
def modulo_add (a b : ℕ) : ℕ := modulo_add64 a b

/-- Source `impl AddAssign for Poly<u8>`: coefficientwise `modulo_add`.  The
mutated receiver is returned as the result. -/
def addAssign (x y : Poly) : Poly := fun i => modulo_add (x i) (y i)

/-- The signed intermediate `Q as i32 + *i as i32 - *j as i32` computed inside
the source `SubAssign` implementation. -/
def subIntermediate (x y : ℕ) : ℤ := (Q : ℤ) + x - y

/-- One coefficient of the source `SubAssign`: the signed intermediate is cast
`as u32` (a wrapping cast, modelled by `% 2^32` on integers) and then reduced
mod `Q`. -/
def subCoeff (x y : ℕ) : ℕ := ((subIntermediate x y) % (2 ^ 32 : ℤ)).toNat % Q

/-- Source `impl SubAssign for Poly<u8>`: coefficientwise `subCoeff`. -/
def subAssign (x y : Poly) : Poly := fun i => subCoeff (x i) (y i)

/-- Source `impl MulAssign<u8> for Poly<u8>`: each coefficient becomes
`modulo_add64(0, coefficient * scalar)`. -/
def scalarMulAssign (x : Poly) (c : ℕ) : Poly := fun i => modulo_add64 0 (x i * c)

/-- One write of the convolution loop inside `Mul for &Poly<u8>`: with the
outer index `n` and inner index `m`, the buffer entry at `n + m` becomes
`modulo_add64(tmp[n + m], a[n] * b[m])`. -/
def innerStep (a b : Poly) (n : Fin 128) (tmp : ℕ → ℕ) (m : Fin 128) : ℕ → ℕ :=
  Function.update tmp (n.1 + m.1) (modulo_add64 (tmp (n.1 + m.1)) (a n * b m))

/-- One iteration of the outer convolution loop: the inner loop runs over all
128 values of `m`. -/
def outerStep (a b : Poly) (tmp : ℕ → ℕ) (n : Fin 128) : ℕ → ℕ :=
  (List.finRange 128).foldl (innerStep a b n) tmp

/-- The 255-entry convolution buffer `tmp` of `Mul for &Poly<u8>` after both
nested loops, starting from the all-zero buffer.  Indices `0..254` are the
meaningful ones; the model maps every other index to `0`. -/
def convBuf (a b : Poly) : ℕ → ℕ :=
  (List.finRange 128).foldl (outerStep a b) (fun _ => 0)

/-- Source `impl Mul for &Poly<u8>`.  After the convolution, the code splits
`tmp` at index 127, copies `tmp[127..255]` into the result, and then for
`n = 0..126` replaces `ret[1 + n]` by `modulo_add(Q - tmp[n], ret[1 + n])`.
So coefficient `0` is `tmp[127]` and coefficient `k ≥ 1` is
`(Q - tmp[k - 1] + tmp[127 + k]) mod Q`.  The `u8` subtraction `Q - tmp[k-1]`
is exact because every buffer entry is below `Q` (theorem `convBuf_lt`). -/
def polyMul (a b : Poly) : Poly := fun k =>
  if k.1 = 0 then convBuf a b 127
  else modulo_add (Q - convBuf a b (k.1 - 1)) (convBuf a b (127 + k.1))

/-- Source `impl BitXor for &Poly<bool>`: elementwise inequality of booleans. -/
def bitXor (x y : PolyB) : PolyB := fun i => x i != y i

/-- Threshold `q4 = Q / 4` of `compute_w` (integer division). -/
def q4 : ℕ := Q / 4

/-- Threshold `_3q4 = (3 * (Q as u32) / 4) as u8` of `compute_w`; the value
`188` fits in a `u8`, so the cast is lossless. -/
def q34 : ℕ := 3 * Q / 4

/-- The per-coefficient signal predicate `sig` of `compute_w`:
`!(q4 <= i && i < _3q4)`. -/
def sig (c : ℕ) : Bool := !(decide (q4 ≤ c) && decide (c < q34))

/-- Source `fn compute_w(Poly(p): Poly<u8>) -> Poly<bool>`.  The loop asserts
`*j < Q` for every coefficient before producing the output bit, so the
function aborts (modelled by `none`) whenever some stored coefficient is out
of range, and otherwise returns the signal vector. -/
def compute_w (p : Poly) : Option PolyB :=
  if ∀ i, p i < Q then some (fun i => sig (p i)) else none

/-- Threshold `q18 = Q / 8` of `compute_sks`. -/
def q18 : ℕ := Q / 8

/-- Threshold `q38 = (3 * (Q as u32) / 8) as u8` of `compute_sks` (lossless
cast, value 94). -/
def q38 : ℕ := 3 * Q / 8

/-- Threshold `q58 = (5 * (Q as u32) / 8) as u8` of `compute_sks` (lossless
cast, value 156). -/
def q58 : ℕ := 5 * Q / 8

/-- Threshold `q78 = (7 * (Q as u32) / 8) as u8` of `compute_sks` (lossless
cast, value 219). -/
def q78 : ℕ := 7 * Q / 8

/-- Source `fn compute_sks(w: &Poly<bool>, s: &Poly<u8>, p: &Poly<u8>) ->
Poly<bool>`: first `tmp = s * p` (the ring multiplication), then per index
the band test selected by the signal bit.  No coefficient-range check is
performed anywhere on this path. -/
def compute_sks (w : PolyB) (s p : Poly) : PolyB := fun i =>
  if !(w i) then !(decide (q38 ≤ polyMul s p i) && decide (polyMul s p i < q58))
  else !(decide (q18 ≤ polyMul s p i) && decide (polyMul s p i < q78))

/-- A randomness source: the raw value produced at each successive draw.  The
source code takes an `impl Rng` and calls `gen_range` on it once per
coefficient; we model the stream of draws abstractly. -/
abbrev Rng : Type := ℕ → ℕ

/-- Models `rand`'s `rng.gen_range(0..span)` (an external-crate call): the
raw draw reduced into the half-open range `[0, span)`.  Only the range
contract of `gen_range` matters for the claims. -/
def genRange (x span : ℕ) : ℕ := x % span

/-- Source `Poly::random`: each of the 128 coefficients is a fresh
`gen_range(0..Q)` draw; `off` is the position of the first draw consumed. -/
def polyRandom (r : Rng) (off : ℕ) : Poly := fun i => genRange (r (off + i.1)) Q

/-- Source `fn gen_noise<R: Rng>`: each coefficient is a fresh
`gen_range(0..Q / 16)` draw. -/
def gen_noise (r : Rng) (off : ℕ) : Poly := fun i => genRange (r (off + i.1)) (Q / 16)

/-- Source `struct Sep`: a party's secret, noise, and public share. -/
structure Sep where
  s : Poly
  e : Poly
  p : Poly

/-- Source `fn gen_sep<R: Rng>(a: &Poly<u8>, rng: &mut R) -> Sep`:
`s = Poly::random(rng)` (draws 0..127), `e = gen_noise(rng)` (draws
128..255), `e2 = e; e2 *= 2`, `p = a * s; p += e2`. -/
def gen_sep (a : Poly) (r : Rng) : Sep :=
  { s := polyRandom r 0
    e := gen_noise r 128
    p := addAssign (polyMul a (polyRandom r 0)) (scalarMulAssign (gen_noise r 128) 2) }

/-- The exact (unreduced) degree-`k` coefficient of the schoolbook product of
`a` and `b`: the sum of `a[n] * b[m]` over all index pairs with `n + m = k`. -/
def conv (a b : Poly) (k : ℕ) : ℕ :=
  ∑ n : Fin 128, ∑ m : Fin 128, if n.1 + m.1 = k then a n * b m else 0

/-- Modelled from the spec: the negacyclic reduction exactly as the
specification words it — coefficient `k` of the final result is
`(low[k] - high[k]) mod Q` where `low` is the convolution's degree-`k` term
and `high` its degree-`(k + 128)` term, the top coefficient 127 having no
high term.  This definition exists only to be compared with `polyMul`, the
embedding of the source's `Mul`. -/
def specMul (a b : Poly) : Poly := fun k =>
  if k.1 = 127 then conv a b 127 % Q
  else (((conv a b k.1 : ℤ) - conv a b (k.1 + 128)) % (Q : ℤ)).toNat

/-- The all-zero ring element. -/
def pZero : Poly := fun _ => 0

/-- The ring element `x`: coefficient 1 at index 1, all others 0. -/
def pX : Poly := fun i => if i.1 = 1 then 1 else 0

/-- The all-ones ring element. -/
def pOneC : Poly := fun _ => 1

/-- The all-twos ring element. -/
def pTwoC : Poly := fun _ => 2

/-- An invalid ring element: every stored coefficient is 255, a `u8` value
outside `[0, Q)`. -/
def pBad : Poly := fun _ => 255

/-- A ring element carrying the two signal-boundary values `Q / 4` (index 0)
and `3 * Q / 4` (index 1). -/
def pBound : Poly := fun i => if i.1 = 0 then Q / 4 else if i.1 = 1 then 3 * Q / 4 else 0

/-- The all-true signal vector. -/
def wTrue : PolyB := fun _ => true

/-- A concrete deterministic randomness source: the draw at position `n` is
`n`. -/
def rId : Rng := fun n => n

theorem modulo_add64_lt (a b : ℕ) : modulo_add64 a b < Q := by
  unfold modulo_add64
  exact Nat.mod_lt _ (by norm_num [Q])

/-- Invariant of the inner convolution loop: if every buffer entry is the
mod-`Q` reduction of a reference function `c`, then after the remaining inner
iterations the entry at `k` is the reduction of `c k` plus all partial
products the iterations contribute to degree `k`. -/
theorem innerFold_char (a b : Poly) (n : Fin 128) :
    ∀ (l : List (Fin 128)) (tmp c : ℕ → ℕ), (∀ k, tmp k = c k % Q) →
    ∀ k, (l.foldl (innerStep a b n) tmp) k
      = (c k + (l.map (fun m => if n.1 + m.1 = k then a n * b m else 0)).sum) % Q := by
  intro l
  induction l with
  | nil =>
    intro tmp c h k
    simpa using h k
  | cons m l ih =>
    intro tmp c h k
    simp only [List.foldl_cons, List.map_cons, List.sum_cons]
    have h' : ∀ j, innerStep a b n tmp m j
        = (if n.1 + m.1 = j then c j + a n * b m else c j) % Q := by
      intro j
      unfold innerStep
      rw [Function.update_apply]
      by_cases hj : j = n.1 + m.1
      · subst hj
        simp only [if_pos rfl]
        unfold modulo_add64
        rw [h]
        exact Nat.mod_add_mod _ _ _
      · rw [if_neg hj, if_neg (fun hc => hj hc.symm)]
        exact h j
    rw [ih (innerStep a b n tmp m) _ h' k]
    by_cases hk : n.1 + m.1 = k
    · rw [if_pos hk, if_pos hk, Nat.add_assoc]
    · rw [if_neg hk, if_neg hk, Nat.zero_add]

/-- Invariant of the outer convolution loop, accumulating the inner-loop
sums. -/
theorem outerFold_char (a b : Poly) :
    ∀ (l : List (Fin 128)) (tmp c : ℕ → ℕ), (∀ k, tmp k = c k % Q) →
    ∀ k, (l.foldl (outerStep a b) tmp) k
      = (c k + (l.map (fun n =>
          ((List.finRange 128).map (fun m => if n.1 + m.1 = k then a n * b m else 0)).sum)).sum) % Q := by
  intro l
  induction l with
  | nil =>
    intro tmp c h k
    simpa using h k
  | cons n l ih =>
    intro tmp c h k
    simp only [List.foldl_cons, List.map_cons, List.sum_cons]
    have h' : ∀ j, outerStep a b tmp n j
        = (c j + ((List.finRange 128).map (fun m => if n.1 + m.1 = j then a n * b m else 0)).sum) % Q := by
      intro j
      exact innerFold_char a b n (List.finRange 128) tmp c h j
    rw [ih (outerStep a b tmp n) _ h' k, Nat.add_assoc]

/-- The final convolution buffer holds exactly the schoolbook convolution
reduced mod `Q`. -/
theorem convBuf_eq_conv (a b : Poly) (k : ℕ) : convBuf a b k = conv a b k % Q := by
  have h := outerFold_char a b (List.finRange 128) (fun _ => 0) (fun _ => 0)
    (fun k => by simp) k
  unfold convBuf
  rw [h, Nat.zero_add]
  congr 1

/-- Every entry of the convolution buffer is strictly below `Q`; in
particular the `u8` expression `Q - tmp[n]` in the reduction loop never
underflows. -/
theorem convBuf_lt (a b : Poly) (k : ℕ) : convBuf a b k < Q := by
  rw [convBuf_eq_conv]
  exact Nat.mod_lt _ (by norm_num [Q])

/-- The schoolbook convolution is symmetric in its two arguments. -/
theorem conv_comm (a b : Poly) (k : ℕ) : conv a b k = conv b a k := by
  have hpt : ∀ (x y : Fin 128),
      (if x.1 + y.1 = k then a x * b y else 0) = (if y.1 + x.1 = k then b y * a x else 0) := by
    intro x y
    rw [Nat.add_comm x.1 y.1, Nat.mul_comm]
  calc conv a b k = ∑ m : Fin 128, ∑ n : Fin 128, if n.1 + m.1 = k then a n * b m else 0 := by
        rw [conv, Finset.sum_comm]
    _ = ∑ m : Fin 128, ∑ n : Fin 128, if m.1 + n.1 = k then b m * a n else 0 :=
        Finset.sum_congr rfl fun m _ => Finset.sum_congr rfl fun n _ => hpt n m
    _ = conv b a k := rfl

/-- The schoolbook convolution of `x` with itself is the single monomial
`x^2`. -/
theorem conv_pX (k : ℕ) : conv pX pX k = if k = 2 then 1 else 0 := by
  unfold conv pX
  rw [Finset.sum_eq_single (1 : Fin 128)]
  · rw [Finset.sum_eq_single (1 : Fin 128)]
    · norm_num
      by_cases hk : k = 2
      · subst hk; norm_num
      · rw [if_neg (by omega : ¬ (1 + 1 : ℕ) = k), if_neg hk]
    · intro m _ hm
      have : ¬ m.1 = 1 := fun h => hm (Fin.ext h)
      simp [this]
    · intro h
      exact absurd (Finset.mem_univ _) h
  · intro n _ hn
    have : ¬ n.1 = 1 := fun h => hn (Fin.ext h)
    simp [this]
  · intro h
    exact absurd (Finset.mem_univ _) h

/-- Any convolution with the all-zero element vanishes. -/
theorem conv_pZero (b : Poly) (k : ℕ) : conv pZero b k = 0 := by
  unfold conv pZero
  simp

/-- C5: closure — for all inputs with coefficients in `[0, Q)`, every
coefficient produced by modular add, modular subtract, scalar multiply, or
ring multiply again lies in `[0, Q)`. -/
theorem ops_closed (a b : Poly) (c : ℕ) (ha : ∀ i, a i < Q) (hb : ∀ i, b i < Q)
    (i : Fin 128) :
    addAssign a b i < Q ∧ subAssign a b i < Q ∧ scalarMulAssign a c i < Q ∧
    polyMul a b i < Q := by
  refine ⟨modulo_add64_lt _ _, ?_, modulo_add64_lt _ _, ?_⟩
  · show subCoeff (a i) (b i) < Q
    unfold subCoeff
    exact Nat.mod_lt _ (by norm_num [Q])
  · show (if i.1 = 0 then convBuf a b 127
      else modulo_add (Q - convBuf a b (i.1 - 1)) (convBuf a b (127 + i.1))) < Q
    by_cases h : i.1 = 0
    · rw [if_pos h]
      exact convBuf_lt a b 127
    · rw [if_neg h]
      exact modulo_add64_lt _ _

theorem ops_closed_witness :
    (∀ i : Fin 128, pOneC i < Q) ∧ (∀ i : Fin 128, pTwoC i < Q) ∧
    (addAssign pOneC pTwoC 0 < Q ∧ subAssign pOneC pTwoC 0 < Q ∧
      scalarMulAssign pOneC 7 0 < Q ∧ polyMul pOneC pTwoC 0 < Q) :=
  ⟨by decide, by decide, ops_closed pOneC pTwoC 7 (by decide) (by decide) 0⟩

/-- C7: additive inverse round-trip — adding `b` and then subtracting `b`
returns every coefficient of `a` unchanged. -/
theorem add_sub_roundtrip (a b : Poly) (ha : ∀ i, a i < Q) (hb : ∀ i, b i < Q)
    (i : Fin 128) : subAssign (addAssign a b) b i = a i := by
  have h1 := ha i
  have h2 := hb i
  show subCoeff (modulo_add (a i) (b i)) (b i) = a i
  unfold subCoeff subIntermediate modulo_add modulo_add64 at *
  rw [show ((2 : ℤ) ^ 32) = 4294967296 by norm_num]
  unfold Q at *
  omega

theorem add_sub_roundtrip_witness :
    (∀ i : Fin 128, pOneC i < Q) ∧ (∀ i : Fin 128, pTwoC i < Q) ∧
    subAssign (addAssign pOneC pTwoC) pTwoC 0 = pOneC 0 :=
  ⟨by decide, by decide, add_sub_roundtrip pOneC pTwoC (by decide) (by decide) 0⟩

/-- C8: the ring multiplication of the source is commutative, coefficient for
coefficient. -/
theorem ringMul_comm (a b : Poly) (ha : ∀ i, a i < Q) (hb : ∀ i, b i < Q)
    (i : Fin 128) : polyMul a b i = polyMul b a i := by
  have h : ∀ j, convBuf a b j = convBuf b a j := fun j => by
    rw [convBuf_eq_conv, convBuf_eq_conv, conv_comm]
  unfold polyMul
  simp only [h]

theorem ringMul_comm_witness :
    (∀ i : Fin 128, pOneC i < Q) ∧ (∀ i : Fin 128, pTwoC i < Q) ∧
    polyMul pOneC pTwoC 5 = polyMul pTwoC pOneC 5 :=
  ⟨by decide, by decide, ringMul_comm pOneC pTwoC (by decide) (by decide) 5⟩

/-- C9: on valid operands the signed intermediate of `SubAssign` is
nonnegative and below `2^32`, so the `as u32` cast does not wrap and the
output coefficient is exactly `(a[i] + Q - b[i]) mod Q`; while a right-hand
coefficient of at least `Q` can drive the intermediate negative. -/
theorem subAssign_no_wrap :
    (∀ (a b : Poly), (∀ i, a i < Q) → (∀ i, b i < Q) → ∀ i : Fin 128,
        0 ≤ subIntermediate (a i) (b i) ∧
        subIntermediate (a i) (b i) % (2 ^ 32 : ℤ) = subIntermediate (a i) (b i) ∧
        subAssign a b i = (a i + Q - b i) % Q) ∧
    (∃ (a b : Poly) (i : Fin 128), Q ≤ b i ∧ subIntermediate (a i) (b i) < 0) := by
  constructor
  · intro a b ha hb i
    have h1 := ha i
    have h2 := hb i
    refine ⟨?_, ?_, ?_⟩
    · unfold subIntermediate
      unfold Q at *
      omega
    · unfold subIntermediate
      rw [show ((2 : ℤ) ^ 32) = 4294967296 by norm_num]
      unfold Q at *
      omega
    · show subCoeff (a i) (b i) = (a i + Q - b i) % Q
      unfold subCoeff subIntermediate
      rw [show ((2 : ℤ) ^ 32) = 4294967296 by norm_num]
      unfold Q at *
      omega
  · refine ⟨pZero, pBad, 0, by norm_num [pBad, Q], ?_⟩
    show subIntermediate (pZero 0) (pBad 0) < 0
    norm_num [subIntermediate, pZero, pBad, Q]

theorem subAssign_no_wrap_witness :
    (∀ i : Fin 128, pOneC i < Q) ∧ (∀ i : Fin 128, pTwoC i < Q) ∧
    (0 ≤ subIntermediate (pOneC 0) (pTwoC 0) ∧
      subIntermediate (pOneC 0) (pTwoC 0) % (2 ^ 32 : ℤ) = subIntermediate (pOneC 0) (pTwoC 0) ∧
      subAssign pOneC pTwoC 0 = (pOneC 0 + Q - pTwoC 0) % Q) :=
  ⟨by decide, by decide, subAssign_no_wrap.1 pOneC pTwoC (by decide) (by decide) 0⟩

/-- C10: every entry of the convolution buffer stays in `[0, Q)` across each
accumulation step, and in the final buffer, so the `u8` subtraction `Q - i`
of the reduction loop never underflows. -/
theorem convBuf_entries_bounded :
    (∀ (a b : Poly) (n m : Fin 128) (tmp : ℕ → ℕ), (∀ j, tmp j < Q) →
        ∀ k, innerStep a b n tmp m k < Q) ∧
    (∀ (a b : Poly) (k : ℕ), convBuf a b k < Q ∧ convBuf a b k + (Q - convBuf a b k) = Q) := by
  constructor
  · intro a b n m tmp htmp k
    unfold innerStep
    rw [Function.update_apply]
    by_cases hk : k = n.1 + m.1
    · rw [if_pos hk]
      exact modulo_add64_lt _ _
    · rw [if_neg hk]
      exact htmp k
  · intro a b k
    have h := convBuf_lt a b k
    exact ⟨h, by omega⟩

theorem convBuf_entries_bounded_witness :
    (∀ j : ℕ, (fun _ => 0 : ℕ → ℕ) j < Q) ∧
    innerStep pOneC pTwoC 0 (fun _ => 0) 0 5 < Q ∧
    (convBuf pOneC pTwoC 0 < Q ∧ convBuf pOneC pTwoC 0 + (Q - convBuf pOneC pTwoC 0) = Q) :=
  ⟨fun _ => by norm_num [Q],
   convBuf_entries_bounded.1 pOneC pTwoC 0 0 (fun _ => 0) (fun _ => by norm_num [Q]) 5,
   convBuf_entries_bounded.2 pOneC pTwoC 0⟩

/-- The signal bit is false exactly on the central half-open band. -/
theorem sig_false_iff (c : ℕ) : sig c = false ↔ (Q / 4 ≤ c ∧ c < 3 * Q / 4) := by
  simp [sig, q4, q34]

/-- C2: on a valid input the signal function returns the vector whose bit `i`
is false exactly when coefficient `i` lies in the central band
`[Q / 4, 3 * Q / 4)`; in particular a coefficient equal to `Q / 4` gives a
false bit and one equal to `3 * Q / 4` gives a true bit. -/
theorem compute_w_spec (p : Poly) (h : ∀ i, p i < Q) :
    ∃ w, compute_w p = some w ∧
      (∀ i, (w i = false ↔ (Q / 4 ≤ p i ∧ p i < 3 * Q / 4))) ∧
      (∀ i, p i = Q / 4 → w i = false) ∧
      (∀ i, p i = 3 * Q / 4 → w i = true) := by
  refine ⟨fun i => sig (p i), ?_, fun i => sig_false_iff (p i), ?_, ?_⟩
  · unfold compute_w
    rw [if_pos h]
  · intro i hpi
    show sig (p i) = false
    rw [sig_false_iff, hpi]
    norm_num [Q]
  · intro i hpi
    show sig (p i) = true
    cases hs : sig (p i) with
    | true => rfl
    | false =>
      have hband := (sig_false_iff (p i)).1 hs
      rw [hpi] at hband
      exact absurd hband.2 (lt_irrefl _)

theorem compute_w_spec_witness :
    (∀ i : Fin 128, pBound i < Q) ∧
    (∃ w, compute_w pBound = some w ∧
      (∀ i, (w i = false ↔ (Q / 4 ≤ pBound i ∧ pBound i < 3 * Q / 4))) ∧
      (∀ i, pBound i = Q / 4 → w i = false) ∧
      (∀ i, pBound i = 3 * Q / 4 → w i = true)) :=
  ⟨by decide, compute_w_spec pBound (by decide)⟩

/-- C3: the shared-secret extractor first forms the ring product of the
secret and the peer public share, and then tests the narrow band
`[3Q/8, 5Q/8)` when the signal bit is false and the wide band `[Q/8, 7Q/8)`
when it is true, each comparison half-open. -/
theorem compute_sks_spec (w : PolyB) (s p : Poly) (hs : ∀ i, s i < Q)
    (hp : ∀ i, p i < Q) (i : Fin 128) :
    (w i = false →
      (compute_sks w s p i = false ↔
        (3 * Q / 8 ≤ polyMul s p i ∧ polyMul s p i < 5 * Q / 8))) ∧
    (w i = true →
      (compute_sks w s p i = false ↔
        (Q / 8 ≤ polyMul s p i ∧ polyMul s p i < 7 * Q / 8))) := by
  constructor
  · intro hw
    simp [compute_sks, hw, q38, q58]
  · intro hw
    simp [compute_sks, hw, q18, q78]

theorem compute_sks_spec_witness :
    (∀ i : Fin 128, pOneC i < Q) ∧ (∀ i : Fin 128, pTwoC i < Q) ∧
    ((wTrue 0 = false →
      (compute_sks wTrue pOneC pTwoC 0 = false ↔
        (3 * Q / 8 ≤ polyMul pOneC pTwoC 0 ∧ polyMul pOneC pTwoC 0 < 5 * Q / 8))) ∧
    (wTrue 0 = true →
      (compute_sks wTrue pOneC pTwoC 0 = false ↔
        (Q / 8 ≤ polyMul pOneC pTwoC 0 ∧ polyMul pOneC pTwoC 0 < 7 * Q / 8)))) :=
  ⟨by decide, by decide, compute_sks_spec wTrue pOneC pTwoC (by decide) (by decide) 0⟩

/-- C4: the party share produced by `gen_sep` has noise coefficients in
`[0, Q / 16)`, and its public value is the ring product of the shared
parameter with the secret, added coefficientwise mod `Q` to the noise scaled
by 2 mod `Q`. -/
theorem gen_sep_spec (a : Poly) (r : Rng) (ha : ∀ i, a i < Q) :
    (∀ i, (gen_sep a r).e i < Q / 16) ∧
    (∀ i, (gen_sep a r).p i
      = (polyMul a ((gen_sep a r).s) i + ((gen_sep a r).e i * 2) % Q) % Q) := by
  constructor
  · intro i
    show genRange (r (128 + i.1)) (Q / 16) < Q / 16
    unfold genRange
    exact Nat.mod_lt _ (by norm_num [Q])
  · intro i
    show modulo_add (polyMul a (polyRandom r 0) i) (modulo_add64 0 (gen_noise r 128 i * 2))
      = (polyMul a (polyRandom r 0) i + (gen_noise r 128 i * 2) % Q) % Q
    unfold modulo_add modulo_add64
    rw [Nat.zero_add]

theorem gen_sep_spec_witness :
    (∀ i : Fin 128, pZero i < Q) ∧
    ((∀ i, (gen_sep pZero rId).e i < Q / 16) ∧
    (∀ i, (gen_sep pZero rId).p i
      = (polyMul pZero ((gen_sep pZero rId).s) i + ((gen_sep pZero rId).e i * 2) % Q) % Q)) :=
  ⟨by decide, gen_sep_spec pZero rId (by decide)⟩

/-- C6 amended: only `compute_w` checks the coefficient invariant — it aborts
exactly when some stored coefficient lies outside `[0, Q)`. -/
theorem compute_w_aborts_iff (p : Poly) : compute_w p = none ↔ ∃ i, Q ≤ p i := by
  unfold compute_w
  by_cases h : ∀ i, p i < Q
  · rw [if_pos h]
    constructor
    · intro hc
      exact absurd hc (Option.some_ne_none _)
    · rintro ⟨i, hi⟩
      exact absurd (h i) (not_lt.2 hi)
  · rw [if_neg h]
    push_neg at h
    obtain ⟨i, hi⟩ := h
    exact ⟨fun _ => ⟨i, hi⟩, fun _ => rfl⟩

/-- C6 fails on the code: on an element whose stored coefficients are all
255 (outside `[0, Q)`), `compute_w` is the only operation that aborts; the
add, subtract, scalar-multiply, ring-multiply and `compute_sks` paths carry
no check and silently produce output values. -/
theorem invalid_input_no_abort :
    compute_w pBad = none ∧
    addAssign pZero pBad 0 = 4 ∧
    subAssign pZero pBad 0 = 119 ∧
    scalarMulAssign pBad 2 0 = 8 ∧
    polyMul pZero pBad 0 = 0 ∧
    compute_sks wTrue pZero pBad 0 = true := by
  have hm : polyMul pZero pBad 0 = 0 := by
    have h0 : ((0 : Fin 128) : ℕ) = 0 := rfl
    unfold polyMul
    rw [h0, if_pos rfl, convBuf_eq_conv, conv_pZero]
    norm_num
  refine ⟨?_, by decide, by decide, by decide, hm, ?_⟩
  · unfold compute_w
    rw [if_neg]
    intro h
    exact absurd (h 0) (by norm_num [pBad, Q])
  · show (if !(wTrue 0) then !(decide (q38 ≤ polyMul pZero pBad 0) && decide (polyMul pZero pBad 0 < q58))
      else !(decide (q18 ≤ polyMul pZero pBad 0) && decide (polyMul pZero pBad 0 < q78))) = true
    rw [hm]
    norm_num [wTrue, q18, q78, Q]

/-- C1 fails on the code: at `a = b = x` the mathematical negacyclic product
is `x^2` (the spec formula, `specMul`, gives coefficient 1 at index 2 and 0
at index 3), but the source reduction loop yields `-x^3`: coefficient 0 at
index 2 and `Q - 1 = 250` at index 3. -/
theorem ringMul_deviates_from_spec :
    polyMul pX pX ⟨2, by norm_num⟩ = 0 ∧
    polyMul pX pX ⟨3, by norm_num⟩ = 250 ∧
    specMul pX pX ⟨2, by norm_num⟩ = 1 ∧
    specMul pX pX ⟨3, by norm_num⟩ = 0 := by
  refine ⟨?_, ?_, ?_, ?_⟩
  · unfold polyMul
    rw [if_neg (by norm_num), convBuf_eq_conv, convBuf_eq_conv, conv_pX, conv_pX]
    norm_num [modulo_add, modulo_add64, Q]
  · unfold polyMul
    rw [if_neg (by norm_num), convBuf_eq_conv, convBuf_eq_conv, conv_pX, conv_pX]
    norm_num [modulo_add, modulo_add64, Q]
  · unfold specMul
    rw [if_neg (by norm_num), conv_pX, conv_pX]
    norm_num [Q]
  · unfold specMul
    rw [if_neg (by norm_num), conv_pX, conv_pX]
    norm_num [Q]

end Rlwe
